import Mathlib

set_option autoImplicit false

namespace PriceCatcher

/-!
Shallow embedding of the pricecatcher loaders
(`bulk_load_price.py`, `inc_load_price.py`, `load_transactions.py`).

Conventions of the embedding:
* SQL `DATE` values are modeled as `Nat`, counting days since 2022-01-01
  (so the epoch default `datetime(2022, 1, 1)` is day `0`); the incremental
  driver's `timedelta(days=1)` becomes `+ 1`.
* `DECIMAL(10,2)` prices are modeled as `Int` numbers of cents.
* SQL `TIMESTAMP` values (`CURRENT_TIMESTAMP`) are modeled as an abstract
  `Nat` supplied to the drivers.
* A table is a `List` of rows in insertion order; `INSERT` appends.
* A statement that can fail (a PRIMARY KEY violation aborts the run with an
  exception) returns `Option`: `none` is the raised error.
-/

/-- A row of the `price` table:
`(date DATE, premise_code VARCHAR, item_code VARCHAR, price DECIMAL(10,2))`. -/
structure Row where
  date : Nat
  premise_code : String
  item_code : String
  price : Int
deriving DecidableEq, Repr

/-- The identity comparison used by the `NOT EXISTS` subquery and by the
composite primary key: `x.date = t.date AND x.premise_code = t.premise_code
AND x.item_code = t.item_code`. -/
def sameIdent (x t : Row) : Bool :=
  x.date == t.date && x.premise_code == t.premise_code && x.item_code == t.item_code

/-- `EXISTS (SELECT 1 FROM price x WHERE x.date = t.date AND x.premise_code =
t.premise_code AND x.item_code = t.item_code)` over table `price`. -/
def existsInPrice (price : List Row) (t : Row) : Bool :=
  price.any (fun x => sameIdent x t)

/-- The `new_records` CTE of `process_monthly_file` in `bulk_load_price.py`:
`SELECT DISTINCT t.* FROM temp_price t WHERE NOT EXISTS (...)`.
The `WHERE` clause filters, then `DISTINCT` keeps one copy of each full row. -/
def newRecords (batch price : List Row) : List Row :=
  (batch.filter (fun t => !existsInPrice price t)).dedup

/-- The `new_records` CTE of `process_monthly_file` in `inc_load_price.py`:
`SELECT DISTINCT t.* FROM temp_price t WHERE DATE(t.date) = ? AND NOT EXISTS (...)`. -/
def newRecordsDay (d : Nat) (batch price : List Row) : List Row :=
  (batch.filter (fun t => t.date == d && !existsInPrice price t)).dedup

/-- DuckDB's check of `PRIMARY KEY (date, premise_code, item_code)` among the
rows of one `INSERT` statement: no two inserted rows may share the identity
triple. -/
def noIdentDup : List Row → Bool
  | [] => true
  | r :: rs => !existsInPrice rs r && noIdentDup rs

/-- `INSERT INTO price SELECT * FROM new_records` against the table with the
composite primary key: succeeds (appending the rows and reporting the
rowcount) iff no inserted row collides with the table or with another
inserted row; `none` is the constraint error that aborts the step. -/
def insertRows (price rows : List Row) : Option (List Row × Nat) :=
  if noIdentDup rows && rows.all (fun r => !existsInPrice price r) then
    some (price ++ rows, rows.length)
  else none

/-- The dedup-merge statement of `bulk_load_price.py` `process_monthly_file`
(lines 89-103): result is the updated `price` table and `result.rowcount`. -/
def mergeResult (batch price : List Row) : Option (List Row × Nat) :=
  insertRows price (newRecords batch price)

/-- The dedup-merge statement of `inc_load_price.py` `process_monthly_file`
(lines 109-124), restricted to the single day `d`. -/
def mergeDayResult (d : Nat) (batch price : List Row) : Option (List Row × Nat) :=
  insertRows price (newRecordsDay d batch price)

/-- The load statement of `load_transactions.py` `main` (lines 100-113): the
`price` table is created there without a primary key, and the insert is a
plain `INSERT INTO price SELECT * FROM read_parquet(?)` with no dedup, so it
always succeeds and appends every batch row. -/
def loadTransactions (batch price : List Row) : List Row :=
  price ++ batch

/-- The identity triple `(date, premise_code, item_code)` of a row. -/
def identTriple (r : Row) : Nat × String × String :=
  (r.date, r.premise_code, r.item_code)

/-- Modelled from the spec: `N_distinct`, the staging batch's row count after
removing in-batch duplicates keyed by the identity triple. -/
def distinctIdentCount (batch : List Row) : Nat :=
  ((batch.map identTriple).dedup).length

/-- Modelled from the spec: `M`, the number of the batch's distinct identity
triples already present in the persisted set. -/
def presentIdentCount (batch price : List Row) : Nat :=
  (((batch.map identTriple).dedup).filter
    (fun i => price.any (fun x => decide (identTriple x = i)))).length

/-- A row of the `data_processing_log` table:
`(processed_date DATE PRIMARY KEY, processed_at TIMESTAMP, file_url VARCHAR,
records_loaded INTEGER)`. -/
structure LedgerEntry where
  processed_date : Nat
  processed_at : Nat
  file_url : String
  records_loaded : Nat
deriving DecidableEq, Repr

/-- The ledger entry stored under key `d` (the first entry whose
`processed_date` is `d`; the primary key keeps at most one). -/
def ledgerFind (ledger : List LedgerEntry) (d : Nat) : Option LedgerEntry :=
  ledger.find? (fun e => e.processed_date == d)

/-- The `DO UPDATE SET processed_at = CURRENT_TIMESTAMP, records_loaded =
excluded.records_loaded` conflict action, applied to the conflicting entry;
`processed_date` and `file_url` are not in the SET list. -/
def updateEntry (d now count : Nat) (e : LedgerEntry) : LedgerEntry :=
  if e.processed_date == d then
    { e with processed_at := now, records_loaded := count }
  else e

/-- The upsert `INSERT INTO data_processing_log (...) VALUES (?,
CURRENT_TIMESTAMP, ?, ?) ON CONFLICT (processed_date) DO UPDATE SET
processed_at = CURRENT_TIMESTAMP, records_loaded = excluded.records_loaded`
(`bulk_load_price.py` main lines 192-198, `inc_load_price.py` main lines
182-188). -/
def recordProgress (ledger : List LedgerEntry) (d now : Nat) (url : String)
    (count : Nat) : List LedgerEntry :=
  if ledger.any (fun e => e.processed_date == d) then
    ledger.map (updateEntry d now count)
  else
    ledger ++ [⟨d, now, url, count⟩]

/-- `SELECT MAX(processed_date) FROM data_processing_log`; `none` is the SQL
NULL returned on an empty table. -/
def maxProcessedDate : List LedgerEntry → Option Nat
  | [] => none
  | e :: es =>
    match maxProcessedDate es with
    | none => some e.processed_date
    | some m => some (max e.processed_date m)

/-- The epoch default `datetime(2022, 1, 1)`, day `0` of the embedding. -/
def epochDate : Nat := 0

/-- `get_last_processed_date` of `inc_load_price.py` (lines 75-94). The
database's ledger table is `none` when absent: the query then raises, and
the `except` branch runs `CREATE TABLE IF NOT EXISTS` and returns the epoch
default. With the table present, the query returns `MAX(processed_date)`,
and a NULL maximum (`result[0]` falsy) falls back to the epoch default.
Returns the table state after the call together with the resume date. -/
def get_last_processed_date :
    Option (List LedgerEntry) → Option (List LedgerEntry) × Nat
  | none => (some [], epochDate)
  | some es =>
    match maxProcessedDate es with
    | none => (some es, epochDate)
    | some m => (some es, m)

/-- The database state a run threads through: the `price` table and the
`data_processing_log` table. -/
structure DBState where
  price : List Row
  ledger : List LedgerEntry
deriving DecidableEq, Repr

/-- One iteration of the incremental driver's day loop (`inc_load_price.py`
main lines 174-190) for day `d`: fetch the monthly file covering `d`
(`none` models HTTP 404, making `process_monthly_file` return `0`), merge
the rows of day `d`, and upsert a ledger entry only when
`records_loaded > 0`. Returns the new state and `records_loaded`; `none`
models the constraint error aborting the run. -/
def incStep (fetch : Nat → Option (List Row)) (url : Nat → String)
    (now d : Nat) (s : DBState) : Option (DBState × Nat) :=
  match fetch d with
  | none => some (s, 0)
  | some batch =>
    match mergeDayResult d batch s.price with
    | none => none
    | some (price', n) =>
      let ledger' := if 0 < n then recordProgress s.ledger d now (url d) n
        else s.ledger
      some (⟨price', ledger'⟩, n)

/-- The incremental driver's `while date <= current_date` loop, unrolled on
the number `k` of remaining days (the loop advances by `timedelta(days=1)`
per iteration, so `incRun` below supplies the exact iteration count).
Returns the final state and the list of days processed in order. -/
def incLoop (fetch : Nat → Option (List Row)) (url : Nat → String)
    (now : Nat) : Nat → Nat → DBState → Option (DBState × List Nat)
  | 0, _, s => some (s, [])
  | k + 1, d, s =>
    match incStep fetch url now d s with
    | none => none
    | some (s', _) =>
      match incLoop fetch url now k (d + 1) s' with
      | none => none
      | some (s'', days) => some (s'', d :: days)

/-- The incremental run of `inc_load_price.py` main from resume day `D`
through current day `T`, both inclusive (for `D > T` the loop body never
runs). -/
def incRun (fetch : Nat → Option (List Row)) (url : Nat → String)
    (now D T : Nat) (s : DBState) : Option (DBState × List Nat) :=
  incLoop fetch url now (T + 1 - D) D s

/-- What `process_monthly_file` of `bulk_load_price.py` reports for one
month: `notFound` is the Python `None` returned after a 404. -/
inductive MonthResult where
  | notFound : MonthResult
  | ok (records_loaded : Nat) (dates : List Nat) : MonthResult
deriving DecidableEq, Repr

/-- `SELECT DISTINCT date AS processed_date FROM temp_price ORDER BY
processed_date` (`bulk_load_price.py` lines 106-110). -/
def distinctDates (batch : List Row) : List Nat :=
  ((batch.map Row.date).dedup).insertionSort (· ≤ ·)

/-- `process_monthly_file` of `bulk_load_price.py` (lines 76-118): download
(`none` fetched models the 404 path), merge with dedup, and report the
rowcount together with the distinct dates of the staged file; the outer
`none` models the constraint error aborting the run. -/
def process_monthly_file (fetched : Option (List Row)) (price : List Row) :
    Option (MonthResult × List Row) :=
  match fetched with
  | none => some (.notFound, price)
  | some batch =>
    match mergeResult batch price with
    | none => none
    | some (price', n) => some (.ok n (distinctDates batch), price')

/-- One iteration of the bulk driver's month loop (`bulk_load_price.py` main
lines 185-198): process the month, and when `result` is non-`None` with a
non-empty date list, upsert one ledger entry per distinct date, every one
with the month's total `records_loaded`. -/
def bulkStep (fetch : Nat → Option (List Row)) (url : Nat → String)
    (now ym : Nat) (s : DBState) : Option DBState :=
  match process_monthly_file (fetch ym) s.price with
  | none => none
  | some (.notFound, price') => some ⟨price', s.ledger⟩
  | some (.ok n dates, price') =>
    if dates.isEmpty then some ⟨price', s.ledger⟩
    else some ⟨price',
      dates.foldl (fun lg d => recordProgress lg d now (url ym) n) s.ledger⟩

/-- The bulk driver's loop over the generated months (month ids abstract the
`year_month` values; `fetch` and `url` are keyed by them). -/
def bulkRun (fetch : Nat → Option (List Row)) (url : Nat → String)
    (now : Nat) : List Nat → DBState → Option DBState
  | [], s => some s
  | ym :: rest, s =>
    match bulkStep fetch url now ym s with
    | none => none
    | some s' => bulkRun fetch url now rest s'

/-- A Python `datetime.date`: year, month, day. -/
structure Date where
  year : Nat
  month : Nat
  day : Nat
deriving DecidableEq, Repr

/-- Python date comparison `current_date <= end_date` (lexicographic on
year, month, day). -/
def dateLe (a b : Date) : Bool :=
  a.year < b.year ||
    (a.year == b.year &&
      (a.month < b.month || (a.month == b.month && a.day ≤ b.day)))

/-- `start_date.replace(day=1)`. -/
def startOfMonth (d : Date) : Date := { d with day := 1 }

/-- `current_date += relativedelta(months=1)` on a first-of-month date
(with `day = 1` the end-of-month clamping of `relativedelta` never fires). -/
def addOneMonth (d : Date) : Date :=
  if d.month == 12 then ⟨d.year + 1, 1, d.day⟩ else ⟨d.year, d.month + 1, d.day⟩

/-- A date's calendar month counted linearly: `year * 12 + month`. -/
def monthIndex (d : Date) : Nat := d.year * 12 + d.month

/-- The first day of the calendar month with linear index `i` (for `i` the
`monthIndex` of a valid date). -/
def monthOfIndex (i : Nat) : Date := ⟨(i - 1) / 12, (i - 1) % 12 + 1, 1⟩

/-- `current_date.strftime('%Y-%m')` (for four-digit years). -/
def ymFor (d : Date) : String :=
  toString d.year ++ "-" ++ (if d.month < 10 then "0" else "") ++ toString d.month

/-- The URL
`f"https://storage.data.gov.my/pricecatcher/pricecatcher_{...}.parquet"`. -/
def urlFor (d : Date) : String :=
  "https://storage.data.gov.my/pricecatcher/pricecatcher_" ++ ymFor d ++ ".parquet"

/-- The `while current_date <= end_date` loop of `generate_month_urls`,
unrolled on the number of whole months remaining; each appended element is
the `{url, year_month}` dict for `current_date`. -/
def monthLoop : Nat → Date → Date → List (String × String)
  | 0, _, _ => []
  | fuel + 1, cur, e =>
    if dateLe cur e then
      (urlFor cur, ymFor cur) :: monthLoop fuel (addOneMonth cur) e
    else []

/-- `generate_month_urls` of `bulk_load_price.py` (lines 120-132): starting
from `start_date.replace(day=1)`, append one `(url, year_month)` entry per
month while `current_date <= end_date`. The fuel is the exact number of
iterations for calendar-valid dates. -/
def generate_month_urls (start_date end_date : Date) : List (String × String) :=
  monthLoop (monthIndex end_date + 1 - monthIndex (startOfMonth start_date))
    (startOfMonth start_date) end_date

/-- Calendar validity of a Python `datetime.date` as far as this development
needs it: the month is in `1..12` and the day is at least `1`. -/
def validDate (d : Date) : Prop :=
  1 ≤ d.month ∧ d.month ≤ 12 ∧ 1 ≤ d.day

/-- A concrete price row used by witnesses. -/
def rowA : Row := ⟨0, "P1", "I1", 120⟩

/-- A row with the same identity triple as `rowA` but a different price. -/
def rowB : Row := ⟨0, "P1", "I1", 150⟩

/-- A row with an identity triple distinct from `rowA`'s. -/
def rowC : Row := ⟨0, "P2", "I1", 150⟩

theorem sameIdent_refl (t : Row) : sameIdent t t = true := by
  simp [sameIdent]

theorem existsInPrice_mono {s : List Row} (l : List Row) {t : Row}
    (h : existsInPrice s t = true) : existsInPrice (s ++ l) t = true := by
  simp only [existsInPrice, List.any_eq_true] at h ⊢
  obtain ⟨x, hx, hs⟩ := h
  exact ⟨x, List.mem_append_left _ hx, hs⟩

theorem existsInPrice_of_mem {s : List Row} {t : Row} (h : t ∈ s) :
    existsInPrice s t = true := by
  simp only [existsInPrice, List.any_eq_true]
  exact ⟨t, h, sameIdent_refl t⟩

theorem mergeResult_eq {batch price s' : List Row} {n : Nat}
    (h : mergeResult batch price = some (s', n)) :
    s' = price ++ newRecords batch price ∧ n = (newRecords batch price).length := by
  unfold mergeResult insertRows at h
  split at h
  · injection h with h'
    exact ⟨(congrArg Prod.fst h').symm, (congrArg Prod.snd h').symm⟩
  · exact absurd h (by simp)

theorem mergeDayResult_eq {d : Nat} {batch price s' : List Row} {n : Nat}
    (h : mergeDayResult d batch price = some (s', n)) :
    s' = price ++ newRecordsDay d batch price ∧
      n = (newRecordsDay d batch price).length := by
  unfold mergeDayResult insertRows at h
  split at h
  · injection h with h'
    exact ⟨(congrArg Prod.fst h').symm, (congrArg Prod.snd h').symm⟩
  · exact absurd h (by simp)

theorem newRecords_after_merge {batch price s' : List Row} {n : Nat}
    (h : mergeResult batch price = some (s', n)) :
    newRecords batch s' = [] := by
  obtain ⟨hs, -⟩ := mergeResult_eq h
  have hfil : (batch.filter (fun t => !existsInPrice s' t)) = [] := by
    rw [List.filter_eq_nil_iff]
    intro t ht
    simp only [Bool.not_eq_true', Bool.not_eq_false]
    by_cases hp : existsInPrice price t = true
    · exact hs ▸ existsInPrice_mono _ hp
    · apply existsInPrice_of_mem
      rw [hs]
      apply List.mem_append_right
      rw [newRecords, List.mem_dedup, List.mem_filter]
      exact ⟨ht, by simp [hp]⟩
  rw [newRecords, hfil, List.dedup_nil]

theorem newRecordsDay_after_merge {d : Nat} {batch price s' : List Row} {n : Nat}
    (h : mergeDayResult d batch price = some (s', n)) :
    newRecordsDay d batch s' = [] := by
  obtain ⟨hs, -⟩ := mergeDayResult_eq h
  have hfil : (batch.filter (fun t => t.date == d && !existsInPrice s' t)) = [] := by
    rw [List.filter_eq_nil_iff]
    intro t ht
    by_cases hd : (t.date == d) = true
    · simp only [hd, Bool.true_and, Bool.not_eq_true', Bool.not_eq_false]
      by_cases hp : existsInPrice price t = true
      · exact hs ▸ existsInPrice_mono _ hp
      · apply existsInPrice_of_mem
        rw [hs]
        apply List.mem_append_right
        rw [newRecordsDay, List.mem_dedup, List.mem_filter]
        exact ⟨ht, by simp [hd, hp]⟩
    · simp [hd]
  rw [newRecordsDay, hfil, List.dedup_nil]

theorem insertRows_nil (price : List Row) : insertRows price [] = some (price, 0) := by
  simp [insertRows, noIdentDup]

/-- C1: merging a staging batch into the persisted price set is idempotent:
if the first dedup merge succeeds and yields persisted set `s'`, then running
the same merge again on `s'` succeeds, inserts zero rows, and leaves the
persisted set exactly `s'` — for both the bulk merge and the single-day
incremental merge. -/
theorem c1_idempotent_merge (batch price s' : List Row) (n : Nat)
    (d : Nat) (batchI priceI sI : List Row) (m : Nat) :
    (mergeResult batch price = some (s', n) →
      mergeResult batch s' = some (s', 0)) ∧
    (mergeDayResult d batchI priceI = some (sI, m) →
      mergeDayResult d batchI sI = some (sI, 0)) := by
  constructor
  · intro h
    have h2 := newRecords_after_merge h
    rw [mergeResult, h2, insertRows_nil]
  · intro h
    have h2 := newRecordsDay_after_merge h
    rw [mergeDayResult, h2, insertRows_nil]

/-- Witness for C1 at a concrete input: merging `[rowA]` into the empty set
inserts one row, and the second merge inserts zero rows. -/
theorem c1_idempotent_merge_witness :
    mergeResult [rowA] [rowA] = some ([rowA], 0) ∧
    mergeDayResult 0 [rowA] [rowA] = some ([rowA], 0) :=
  ⟨(c1_idempotent_merge [rowA] [] [rowA] 1 0 [rowA] [] [rowA] 1).1 (by decide),
   (c1_idempotent_merge [rowA] [] [rowA] 1 0 [rowA] [] [rowA] 1).2 (by decide)⟩

theorem sameIdent_iff {x t : Row} :
    sameIdent x t = true ↔ identTriple x = identTriple t := by
  simp [sameIdent, identTriple, Bool.and_eq_true, Prod.ext_iff, and_assoc]

theorem sameIdent_symm {x t : Row} (h : sameIdent x t = true) :
    sameIdent t x = true := by
  rw [sameIdent_iff] at h ⊢
  exact h.symm

theorem existsInPrice_cons {r t : Row} {rs : List Row} :
    existsInPrice (r :: rs) t = (sameIdent r t || existsInPrice rs t) := by
  simp [existsInPrice]

theorem existsInPrice_eq_false_iff {s : List Row} {t : Row} :
    existsInPrice s t = false ↔ ∀ x ∈ s, sameIdent x t = false := by
  simp [existsInPrice, List.any_eq_false]

theorem noIdentDup_eq_false_of_collision {l : List Row} {a b : Row}
    (ha : a ∈ l) (hb : b ∈ l) (hne : a ≠ b) (hid : sameIdent a b = true) :
    noIdentDup l = false := by
  induction l with
  | nil => cases ha
  | cons r rs ih =>
    rcases List.mem_cons.mp ha with rfl | ha'
    · rcases List.mem_cons.mp hb with rfl | hb'
      · exact absurd rfl hne
      · have : existsInPrice rs a = true :=
          List.any_eq_true.mpr ⟨b, hb', sameIdent_symm hid⟩
        simp [noIdentDup, this]
    · rcases List.mem_cons.mp hb with rfl | hb'
      · have : existsInPrice rs b = true :=
          List.any_eq_true.mpr ⟨a, ha', hid⟩
        simp [noIdentDup, this]
      · simp [noIdentDup, ih ha' hb']

theorem noIdentDup_of_nodup {l : List Row} (hn : l.Nodup)
    (hu : ∀ a ∈ l, ∀ b ∈ l, sameIdent a b = true → a = b) :
    noIdentDup l = true := by
  induction l with
  | nil => rfl
  | cons r rs ih =>
    have h1 : existsInPrice rs r = false := by
      rw [existsInPrice_eq_false_iff]
      intro x hx
      by_contra hc
      have hx' : x = r :=
        hu x (List.mem_cons_of_mem r hx) r
          (List.mem_cons_self r rs) (by simpa using hc)
      exact (List.nodup_cons.mp hn).1 (hx' ▸ hx)
    have h2 := ih (List.nodup_cons.mp hn).2
      (fun a ha b hb hab => hu a (List.mem_cons_of_mem r ha) b (List.mem_cons_of_mem r hb) hab)
    simp [noIdentDup, h1, h2]

theorem noIdentDup_append {a b : List Row} (ha : noIdentDup a = true)
    (hb : noIdentDup b = true)
    (hab : ∀ r ∈ b, existsInPrice a r = false) :
    noIdentDup (a ++ b) = true := by
  induction a with
  | nil => simpa using hb
  | cons r rs ih =>
    simp only [noIdentDup, Bool.and_eq_true, Bool.not_eq_true'] at ha
    have hcross : existsInPrice b r = false := by
      rw [existsInPrice_eq_false_iff]
      intro x hx
      by_contra hc
      have := (existsInPrice_eq_false_iff.mp (hab x hx)) r (List.mem_cons_self r rs)
      rw [sameIdent_symm (by simpa using hc)] at this
      cases this
    have hhead : existsInPrice (rs ++ b) r = false := by
      rw [existsInPrice_eq_false_iff]
      intro x hx
      rcases List.mem_append.mp hx with h | h
      · exact existsInPrice_eq_false_iff.mp ha.1 x h
      · exact existsInPrice_eq_false_iff.mp hcross x h
    have htail : ∀ r' ∈ b, existsInPrice rs r' = false := by
      intro r' hr'
      rw [existsInPrice_eq_false_iff]
      intro x hx
      exact existsInPrice_eq_false_iff.mp (hab r' hr') x (List.mem_cons_of_mem r hx)
    simp [noIdentDup, hhead, ih ha.2 htail]

theorem insertRows_some {price rows s' : List Row} {n : Nat}
    (h : insertRows price rows = some (s', n)) :
    noIdentDup rows = true ∧ (∀ r ∈ rows, existsInPrice price r = false) ∧
      s' = price ++ rows ∧ n = rows.length := by
  unfold insertRows at h
  split at h
  · rename_i hcond
    rw [Bool.and_eq_true, List.all_eq_true] at hcond
    injection h with h'
    refine ⟨hcond.1, fun r hr => by simpa using hcond.2 r hr,
      (congrArg Prod.fst h').symm, (congrArg Prod.snd h').symm⟩
  · exact absurd h (by simp)

theorem mem_newRecords {batch price : List Row} {t : Row} :
    t ∈ newRecords batch price ↔ t ∈ batch ∧ existsInPrice price t = false := by
  rw [newRecords, List.mem_dedup, List.mem_filter]
  simp

/-- C2 counterexample: `load_transactions.py` appends its fixed monthly batch
with no deduplication into a `price` table created without a primary key, so
running it twice (a sequence of operations this system performs) stores two
rows with the same identity triple. -/
theorem c2_counterexample_duplicate_identities :
    noIdentDup (loadTransactions [rowA] (loadTransactions [rowA] [])) = false := by
  decide

/-- C2 (amended): restricted to the dedup-merge loaders (`bulk_load_price.py`
and `inc_load_price.py`), the invariant holds: if the persisted set has
pairwise-distinct identity triples and a merge succeeds, the resulting set
again has pairwise-distinct identity triples and begins with the old set
unchanged (rows are only appended, never updated or deleted). The plain
loader `load_transactions.py` is exempt: it appends without dedup into a
PK-less table and can create duplicate triples. -/
theorem c2_no_duplicate_identities (batch price s' sI : List Row) (n m d : Nat)
    (hu : noIdentDup price = true) :
    (mergeResult batch price = some (s', n) →
      noIdentDup s' = true ∧ s'.take price.length = price) ∧
    (mergeDayResult d batch price = some (sI, m) →
      noIdentDup sI = true ∧ sI.take price.length = price) := by
  constructor
  · intro h
    obtain ⟨h1, h2, h3, -⟩ := insertRows_some h
    subst h3
    exact ⟨noIdentDup_append hu h1 h2, List.take_left _ _⟩
  · intro h
    obtain ⟨h1, h2, h3, -⟩ := insertRows_some h
    subst h3
    exact ⟨noIdentDup_append hu h1 h2, List.take_left _ _⟩

/-- Witness for C2's amended theorem at a concrete input. -/
theorem c2_no_duplicate_identities_witness :
    noIdentDup [rowA, rowC] = true ∧ [rowA, rowC].take 1 = [rowA] :=
  (c2_no_duplicate_identities [rowC] [rowA] [rowA, rowC] [rowA, rowC] 1 1 0
    (by decide)).1 (by decide)

theorem mem_newRecordsDay {d : Nat} {batch price : List Row} {t : Row} :
    t ∈ newRecordsDay d batch price ↔
      t ∈ batch ∧ t.date = d ∧ existsInPrice price t = false := by
  rw [newRecordsDay, List.mem_dedup, List.mem_filter]
  simp [and_assoc]

/-- C10: an in-batch identity collision aborts the merge: two distinct batch
rows with the same identity triple, neither present in the persisted set,
both survive the full-row `DISTINCT`, and the subsequent insert into the
table with composite primary key fails with a constraint error (`none`) —
in the bulk merge, and in the incremental merge when both rows carry the
target day. -/
theorem c10_collision_aborts_merge (b1 b2 : Row) (batch price : List Row)
    (h1 : b1 ∈ batch) (h2 : b2 ∈ batch) (hne : b1 ≠ b2)
    (hid : sameIdent b1 b2 = true)
    (hp1 : existsInPrice price b1 = false)
    (hp2 : existsInPrice price b2 = false) :
    b1 ∈ newRecords batch price ∧ b2 ∈ newRecords batch price ∧
    mergeResult batch price = none ∧
    mergeDayResult b1.date batch price = none := by
  have hm1 : b1 ∈ newRecords batch price := mem_newRecords.mpr ⟨h1, hp1⟩
  have hm2 : b2 ∈ newRecords batch price := mem_newRecords.mpr ⟨h2, hp2⟩
  have hdup : noIdentDup (newRecords batch price) = false :=
    noIdentDup_eq_false_of_collision hm1 hm2 hne hid
  have hdate : b2.date = b1.date := by
    have := sameIdent_iff.mp hid
    simpa [identTriple, Prod.ext_iff] using (congrArg Prod.fst this).symm
  have hd1 : b1 ∈ newRecordsDay b1.date batch price :=
    mem_newRecordsDay.mpr ⟨h1, rfl, hp1⟩
  have hd2 : b2 ∈ newRecordsDay b1.date batch price :=
    mem_newRecordsDay.mpr ⟨h2, hdate, hp2⟩
  have hdupd : noIdentDup (newRecordsDay b1.date batch price) = false :=
    noIdentDup_eq_false_of_collision hd1 hd2 hne hid
  refine ⟨hm1, hm2, ?_, ?_⟩
  · rw [mergeResult, insertRows, hdup]
    simp
  · rw [mergeDayResult, insertRows, hdupd]
    simp

/-- Witness for C10 at a concrete input: the batch `[rowA, rowB]` holds two
distinct rows with the same identity triple; merging into the empty set
fails with a constraint error. -/
theorem c10_collision_aborts_merge_witness :
    mergeResult [rowA, rowB] [] = none ∧
    mergeDayResult 0 [rowA, rowB] [] = none := by
  have h := c10_collision_aborts_merge rowA rowB [rowA, rowB] []
    (by decide) (by decide) (by decide) (by decide) (by decide) (by decide)
  exact ⟨h.2.2.1, h.2.2.2⟩

/-- C3 counterexample: for the batch `[rowA, rowB]` (same identity triple,
different prices) and the empty persisted set, the spec's `N_distinct − M`
is `1`, but the merge does not insert one row: it aborts with a constraint
error. -/
theorem c3_counterexample_collision_batch :
    distinctIdentCount [rowA, rowB] - presentIdentCount [rowA, rowB] [] = 1 ∧
    mergeResult [rowA, rowB] [] = none := by
  decide

/-- C3 (amended): restricted to batches in which the identity triple
determines the row (no two batch rows share the triple while differing
elsewhere), the merge succeeds and inserts exactly
`N_distinct − M` rows, with `N_distinct` the number of distinct identity
triples in the batch and `M` the number of them already present in the
persisted set. -/
theorem c3_round_trip_count (batch price : List Row)
    (hu : ∀ a ∈ batch, ∀ b ∈ batch, sameIdent a b = true → a = b) :
    mergeResult batch price =
      some (price ++ newRecords batch price,
        distinctIdentCount batch - presentIdentCount batch price) := by
  have hnodup : noIdentDup (newRecords batch price) = true :=
    noIdentDup_of_nodup (List.nodup_dedup _)
      (fun a ha b hb hab =>
        hu a (mem_newRecords.mp ha).1 b (mem_newRecords.mp hb).1 hab)
  have hall : ∀ r ∈ newRecords batch price, existsInPrice price r = false :=
    fun r hr => (mem_newRecords.mp hr).2
  have hcount : (newRecords batch price).length =
      distinctIdentCount batch - presentIdentCount batch price := by
    set p : Nat × String × String → Bool :=
      fun i => price.any (fun x => decide (identTriple x = i)) with hp
    have hsplit := List.length_eq_length_filter_add (l := (batch.map identTriple).dedup) p
    have hperm : ((newRecords batch price).map identTriple).Perm
        (((batch.map identTriple).dedup).filter (fun i => !p i)) := by
      rw [List.perm_ext_iff_of_nodup]
      · intro i
        rw [List.mem_map, List.mem_filter, List.mem_dedup, List.mem_map]
        constructor
        · rintro ⟨r, hr, rfl⟩
          obtain ⟨hrb, hrp⟩ := mem_newRecords.mp hr
          refine ⟨⟨r, hrb, rfl⟩, ?_⟩
          simp only [hp, Bool.not_eq_true', List.any_eq_false, decide_eq_true_eq]
          intro x hx hxi
          have : sameIdent x r = true := sameIdent_iff.mpr hxi
          rw [(existsInPrice_eq_false_iff.mp hrp) x hx] at this
          cases this
        · rintro ⟨⟨r, hrb, rfl⟩, hnp⟩
          refine ⟨r, mem_newRecords.mpr ⟨hrb, ?_⟩, rfl⟩
          rw [existsInPrice_eq_false_iff]
          intro x hx
          by_contra hc
          simp only [hp, Bool.not_eq_true', List.any_eq_false, decide_eq_true_eq] at hnp
          exact hnp x hx (sameIdent_iff.mp (by simpa using hc))
      · exact List.Nodup.map_on
          (fun a ha b hb hab =>
            hu a (mem_newRecords.mp ha).1 b (mem_newRecords.mp hb).1
              (sameIdent_iff.mpr hab))
          (List.nodup_dedup _)
      · exact List.Nodup.filter _ (List.nodup_dedup _)
    have hlen := hperm.length_eq
    rw [List.length_map] at hlen
    rw [hlen, distinctIdentCount, presentIdentCount, ← hp]
    omega
  rw [mergeResult, insertRows, hnodup]
  have : (newRecords batch price).all (fun r => !existsInPrice price r) = true :=
    List.all_eq_true.mpr (fun r hr => by simp [hall r hr])
  rw [this, hcount]
  rfl

/-- Witness for C3's amended theorem at a concrete input: a batch with three
rows, two of them full-row duplicates and one identity already persisted,
inserts `2 − 1 = 1` row. -/
theorem c3_round_trip_count_witness :
    mergeResult [rowA, rowA, rowC] [rowA] =
      some ([rowA] ++ newRecords [rowA, rowA, rowC] [rowA],
        distinctIdentCount [rowA, rowA, rowC] -
          presentIdentCount [rowA, rowA, rowC] [rowA]) :=
  c3_round_trip_count [rowA, rowA, rowC] [rowA] (by decide)

theorem maxProcessedDate_cons (e : LedgerEntry) (es : List LedgerEntry) :
    maxProcessedDate (e :: es) =
      match maxProcessedDate es with
      | none => some e.processed_date
      | some m => some (max e.processed_date m) := rfl

theorem maxProcessedDate_spec (es : List LedgerEntry) (hne : es ≠ []) :
    ∃ m, maxProcessedDate es = some m ∧ (∀ e ∈ es, e.processed_date ≤ m) ∧
      ∃ e ∈ es, e.processed_date = m := by
  induction es with
  | nil => cases hne rfl
  | cons e es ih =>
    cases es with
    | nil =>
      exact ⟨e.processed_date, by simp [maxProcessedDate], by simp,
        e, by simp⟩
    | cons e2 es2 =>
      obtain ⟨m, hm, hub, e0, he0, he0m⟩ := ih (by simp)
      refine ⟨max e.processed_date m, by rw [maxProcessedDate_cons, hm], ?_, ?_⟩
      · intro x hx
        rcases List.mem_cons.mp hx with rfl | hx'
        · exact Nat.le_max_left _ _
        · exact Nat.le_trans (hub x hx') (Nat.le_max_right _ _)
      · rcases Nat.le_total e.processed_date m with h | h
        · exact ⟨e0, List.mem_cons_of_mem e he0, by omega⟩
        · exact ⟨e, List.mem_cons_self e _, by omega⟩

/-- C6: `get_last_processed_date` returns the maximum `processed_date` over
the ledger entries; on an empty ledger table it returns the epoch default
`2022-01-01` (day `0`); on a missing ledger table it creates the empty table
and returns the epoch default, with no failure propagated (the function is
total). -/
theorem c6_last_processed_date (es : List LedgerEntry) :
    get_last_processed_date none = (some [], epochDate) ∧
    get_last_processed_date (some []) = (some [], epochDate) ∧
    (es ≠ [] →
      (get_last_processed_date (some es)).1 = some es ∧
      (∀ e ∈ es, e.processed_date ≤ (get_last_processed_date (some es)).2) ∧
      ∃ e ∈ es, e.processed_date = (get_last_processed_date (some es)).2) := by
  refine ⟨rfl, rfl, fun hne => ?_⟩
  obtain ⟨m, hm, hub, hex⟩ := maxProcessedDate_spec es hne
  have hval : get_last_processed_date (some es) = (some es, m) := by
    rw [get_last_processed_date, hm]
  rw [hval]
  exact ⟨rfl, hub, hex⟩

/-- Witness for C6 at a concrete input. -/
theorem c6_last_processed_date_witness :
    (get_last_processed_date (some [⟨3, 0, "u", 1⟩])).1 = some [⟨3, 0, "u", 1⟩] ∧
    ∃ e ∈ [(⟨3, 0, "u", 1⟩ : LedgerEntry)], e.processed_date =
      (get_last_processed_date (some [⟨3, 0, "u", 1⟩])).2 :=
  ⟨((c6_last_processed_date [⟨3, 0, "u", 1⟩]).2.2 (by decide)).1,
   ((c6_last_processed_date [⟨3, 0, "u", 1⟩]).2.2 (by decide)).2.2⟩

theorem updateEntry_processed_date (d now count : Nat) (e : LedgerEntry) :
    (updateEntry d now count e).processed_date = e.processed_date := by
  unfold updateEntry
  split <;> rfl

theorem find_map_updateEntry {ledger : List LedgerEntry} {d : Nat}
    {e : LedgerEntry} (now count : Nat)
    (h : ledger.find? (fun x => x.processed_date == d) = some e) :
    (ledger.map (updateEntry d now count)).find?
      (fun x => x.processed_date == d) = some (updateEntry d now count e) := by
  induction ledger with
  | nil => simp at h
  | cons x xs ih =>
    by_cases hx : (x.processed_date == d) = true
    · rw [List.find?_cons_of_pos (p := fun y : LedgerEntry => y.processed_date == d) _ hx] at h
      injection h with h
      subst h
      rw [List.map_cons]
      exact List.find?_cons_of_pos (p := fun y : LedgerEntry => y.processed_date == d) _
        (by show ((updateEntry d now count x).processed_date == d) = true
            rw [updateEntry_processed_date]; exact hx)
    · rw [List.find?_cons_of_neg (p := fun y : LedgerEntry => y.processed_date == d) _
        (by simp [hx])] at h
      rw [List.map_cons,
        List.find?_cons_of_neg (p := fun y : LedgerEntry => y.processed_date == d) _
          (by show ¬((updateEntry d now count x).processed_date == d) = true
              rw [updateEntry_processed_date]; exact hx)]
      exact ih h

/-- C9: the ledger upsert on a date that already has an entry overwrites
only `processed_at` and `records_loaded`; the stored `processed_date` key
and the stored `file_url` are unchanged by the conflict branch (in
particular the new `url` argument is discarded). -/
theorem c9_upsert_frame (ledger : List LedgerEntry) (d now : Nat)
    (url : String) (count : Nat) (e : LedgerEntry)
    (h : ledgerFind ledger d = some e) :
    ledgerFind (recordProgress ledger d now url count) d =
      some ⟨e.processed_date, now, e.file_url, count⟩ := by
  unfold ledgerFind at h
  have hmem : e ∈ ledger := List.mem_of_find?_eq_some h
  have hpd : (e.processed_date == d) = true := by
    have := List.find?_some h
    simpa using this
  have hany : ledger.any (fun x => x.processed_date == d) = true :=
    List.any_eq_true.mpr ⟨e, hmem, hpd⟩
  rw [recordProgress, if_pos hany, ledgerFind, find_map_updateEntry now count h,
    updateEntry, if_pos hpd]

/-- Witness for C9 at a concrete input: upserting over an existing entry
keeps its `file_url` and key while refreshing timestamp and count. -/
theorem c9_upsert_frame_witness :
    ledgerFind (recordProgress [⟨2, 0, "orig", 7⟩] 2 9 "new" 4) 2 =
      some ⟨2, 9, "orig", 4⟩ :=
  c9_upsert_frame [⟨2, 0, "orig", 7⟩] 2 9 "new" 4 ⟨2, 0, "orig", 7⟩ (by decide)

theorem find?_append_single (ledger : List LedgerEntry) (a : LedgerEntry)
    (p : LedgerEntry → Bool) (h : ledger.find? p = none) :
    (ledger ++ [a]).find? p = [a].find? p := by
  induction ledger with
  | nil => rfl
  | cons x xs ih =>
    by_cases hx : p x = true
    · rw [List.find?_cons_of_pos (p := p) _ hx] at h
      cases h
    · rw [List.find?_cons_of_neg (p := p) _ hx] at h
      rw [List.cons_append, List.find?_cons_of_neg (p := p) _ hx]
      exact ih h

theorem recordProgress_find_self (ledger : List LedgerEntry) (d now : Nat)
    (url : String) (count : Nat) :
    ∃ e, ledgerFind (recordProgress ledger d now url count) d = some e ∧
      e.processed_date = d ∧ e.processed_at = now ∧ e.records_loaded = count := by
  unfold recordProgress
  split
  · rename_i hany
    obtain ⟨e0, hmem, hp0⟩ := List.any_eq_true.mp hany
    obtain ⟨e1, he1⟩ : ∃ e1, ledger.find? (fun x => x.processed_date == d) = some e1 := by
      have : (ledger.find? (fun x => x.processed_date == d)).isSome := by
        rw [List.find?_isSome]
        exact ⟨e0, hmem, hp0⟩
      exact Option.isSome_iff_exists.mp this
    have hp1 : (e1.processed_date == d) = true := by
      have := List.find?_some he1
      simpa using this
    refine ⟨updateEntry d now count e1, ?_, ?_⟩
    · rw [ledgerFind]
      exact find_map_updateEntry now count he1
    · rw [updateEntry, if_pos hp1]
      exact ⟨by simpa using hp1, rfl, rfl⟩
  · rename_i hany
    have hnone : ledger.find? (fun x => x.processed_date == d) = none := by
      rw [List.find?_eq_none]
      intro x hx
      simp only [Bool.not_eq_true]
      by_contra hc
      exact hany (List.any_eq_true.mpr ⟨x, hx, by simpa using hc⟩)
    refine ⟨⟨d, now, url, count⟩, ?_, rfl, rfl, rfl⟩
    rw [ledgerFind, find?_append_single _ _ _ hnone]
    simp [List.find?]

theorem ledgerFind_map_update_ne (ledger : List LedgerEntry) (d now count : Nat)
    {e : Nat} (hne : e ≠ d) :
    (ledger.map (updateEntry d now count)).find?
        (fun x => x.processed_date == e) =
      ledger.find? (fun x => x.processed_date == e) := by
  induction ledger with
  | nil => rfl
  | cons x xs ih =>
    rw [List.map_cons]
    by_cases hx : (x.processed_date == e) = true
    · have hxd : (x.processed_date == d) = false := by
        have : x.processed_date = e := by simpa using hx
        simp [this, hne]
      have hupd : updateEntry d now count x = x := by
        rw [updateEntry, hxd]
        simp
      rw [hupd, List.find?_cons_of_pos (p := fun y : LedgerEntry => y.processed_date == e) _ hx,
        List.find?_cons_of_pos (p := fun y : LedgerEntry => y.processed_date == e) _ hx]
    · rw [List.find?_cons_of_neg (p := fun y : LedgerEntry => y.processed_date == e) _
        (by show ¬((updateEntry d now count x).processed_date == e) = true
            rw [updateEntry_processed_date]; exact hx),
        List.find?_cons_of_neg (p := fun y : LedgerEntry => y.processed_date == e) _ hx]
      exact ih

theorem find?_append_single_ne (ledger : List LedgerEntry) (a : LedgerEntry)
    (e : Nat) (ha : (a.processed_date == e) = false) :
    (ledger ++ [a]).find? (fun x => x.processed_date == e) =
      ledger.find? (fun x => x.processed_date == e) := by
  induction ledger with
  | nil =>
    rw [List.nil_append,
      List.find?_cons_of_neg (p := fun y : LedgerEntry => y.processed_date == e) _
        (by simp [ha])]
  | cons x xs ih =>
    by_cases hx : (x.processed_date == e) = true
    · rw [List.cons_append,
        List.find?_cons_of_pos (p := fun y : LedgerEntry => y.processed_date == e) _ hx,
        List.find?_cons_of_pos (p := fun y : LedgerEntry => y.processed_date == e) _ hx]
    · rw [List.cons_append,
        List.find?_cons_of_neg (p := fun y : LedgerEntry => y.processed_date == e) _ hx,
        List.find?_cons_of_neg (p := fun y : LedgerEntry => y.processed_date == e) _ hx]
      exact ih

theorem ledgerFind_recordProgress_ne (ledger : List LedgerEntry) (d now : Nat)
    (url : String) (count : Nat) {e : Nat} (hne : e ≠ d) :
    ledgerFind (recordProgress ledger d now url count) e = ledgerFind ledger e := by
  unfold recordProgress ledgerFind
  split
  · exact ledgerFind_map_update_ne ledger d now count hne
  · exact find?_append_single_ne ledger _ e
      (beq_eq_false_iff_ne.mpr (fun h => hne h.symm))

theorem foldl_recordProgress_not_mem (now count : Nat) (url : String)
    (dates : List Nat) :
    ∀ (lg : List LedgerEntry) (d : Nat), d ∉ dates →
      ledgerFind (dates.foldl (fun l d' => recordProgress l d' now url count) lg) d =
        ledgerFind lg d := by
  induction dates with
  | nil => intro lg d _; rfl
  | cons d0 ds ih =>
    intro lg d hd
    rw [List.foldl_cons,
      ih (recordProgress lg d0 now url count) d (fun h => hd (List.mem_cons_of_mem _ h))]
    exact ledgerFind_recordProgress_ne lg d0 now url count
      (fun h => hd (h ▸ List.mem_cons_self d0 ds))

theorem foldl_recordProgress_mem (now count : Nat) (url : String)
    (dates : List Nat) (hnd : dates.Nodup) :
    ∀ (lg : List LedgerEntry), ∀ d ∈ dates,
      ∃ e, ledgerFind
          (dates.foldl (fun l d' => recordProgress l d' now url count) lg) d = some e ∧
        e.processed_date = d ∧ e.processed_at = now ∧ e.records_loaded = count := by
  induction dates with
  | nil => intro lg d hd; cases hd
  | cons d0 ds ih =>
    intro lg d hd
    rw [List.foldl_cons]
    rcases List.mem_cons.mp hd with rfl | hd'
    · rw [foldl_recordProgress_not_mem now count url ds _ d
        (List.nodup_cons.mp hnd).1]
      exact recordProgress_find_self lg d now url count
    · exact ih (List.nodup_cons.mp hnd).2 _ d hd'

theorem mem_distinctDates {batch : List Row} {d : Nat} :
    d ∈ distinctDates batch ↔ d ∈ batch.map Row.date := by
  rw [distinctDates, (List.perm_insertionSort _ _).mem_iff, List.mem_dedup]

theorem nodup_distinctDates (batch : List Row) : (distinctDates batch).Nodup :=
  ((List.perm_insertionSort _ _).nodup_iff).mpr (List.nodup_dedup _)

/-- C8: when the bulk driver successfully processes a month (the fetch
returned a file and the merge succeeded), it writes one ledger entry per
distinct date present in the file — the written set of keys is exactly the
dates occurring in the batch — and every one of those entries carries the
month's total insert count `n` as `records_loaded`; ledger entries for all
other dates are untouched. -/
theorem c8_backfill_ledger_writes (fetch : Nat → Option (List Row))
    (url : Nat → String) (now ym : Nat) (batch : List Row) (s : DBState)
    (price' : List Row) (n : Nat) (s' : DBState)
    (hf : fetch ym = some batch)
    (hm : mergeResult batch s.price = some (price', n))
    (hstep : bulkStep fetch url now ym s = some s') :
    s'.price = price' ∧
    (∀ d, d ∈ distinctDates batch ↔ d ∈ batch.map Row.date) ∧
    (distinctDates batch).Nodup ∧
    (∀ d ∈ distinctDates batch,
      ∃ e, ledgerFind s'.ledger d = some e ∧ e.processed_date = d ∧
        e.processed_at = now ∧ e.records_loaded = n) ∧
    (∀ d, d ∉ distinctDates batch →
      ledgerFind s'.ledger d = ledgerFind s.ledger d) := by
  rw [bulkStep, hf] at hstep
  simp only [process_monthly_file, hm] at hstep
  by_cases hemp : (distinctDates batch).isEmpty = true
  · rw [if_pos hemp] at hstep
    injection hstep with hstep
    subst hstep
    have hnil : distinctDates batch = [] := List.isEmpty_iff.mp hemp
    refine ⟨rfl, fun d => mem_distinctDates, nodup_distinctDates batch,
      ?_, fun d _ => rfl⟩
    intro d hd
    rw [hnil] at hd
    cases hd
  · rw [if_neg hemp] at hstep
    injection hstep with hstep
    subst hstep
    refine ⟨rfl, fun d => mem_distinctDates, nodup_distinctDates batch, ?_, ?_⟩
    · exact foldl_recordProgress_mem now n (url ym) (distinctDates batch)
        (nodup_distinctDates batch) s.ledger
    · exact fun d hd =>
        foldl_recordProgress_not_mem now n (url ym) (distinctDates batch) s.ledger d hd

/-- Witness for C8 at a concrete input: a month whose file holds two rows of
day `0` inserts `2` rows and leaves a single ledger entry for day `0` with
`records_loaded = 2`. -/
theorem c8_backfill_ledger_writes_witness :
    ∃ e, ledgerFind (⟨[rowA, rowC], [⟨0, 5, "u", 2⟩]⟩ : DBState).ledger 0 = some e ∧
      e.processed_date = 0 ∧ e.processed_at = 5 ∧ e.records_loaded = 2 :=
  (c8_backfill_ledger_writes (fun _ => some [rowA, rowC]) (fun _ => "u") 5 0
    [rowA, rowC] ⟨[], []⟩ [rowA, rowC] 2 ⟨[rowA, rowC], [⟨0, 5, "u", 2⟩]⟩
    rfl (by decide) (by decide)).2.2.2.1 0 (by decide)

theorem existsInPrice_subset {a b : List Row} (hab : ∀ x ∈ a, x ∈ b) {t : Row}
    (h : existsInPrice a t = true) : existsInPrice b t = true := by
  rw [existsInPrice, List.any_eq_true] at h ⊢
  obtain ⟨x, hx, hs⟩ := h
  exact ⟨x, hab x hx, hs⟩

theorem recordProgress_mem {ledger : List LedgerEntry} {d now : Nat}
    {url : String} {count : Nat} {e : LedgerEntry}
    (h : e ∈ recordProgress ledger d now url count) :
    e ∈ ledger ∨ e.records_loaded = count := by
  rw [recordProgress] at h
  split at h
  · obtain ⟨x, hx, rfl⟩ := List.mem_map.mp h
    rw [updateEntry]
    split
    · exact Or.inr rfl
    · exact Or.inl hx
  · rcases List.mem_append.mp h with h | h
    · exact Or.inl h
    · rw [List.mem_singleton] at h
      subst h
      exact Or.inr rfl

theorem incStep_cases (fetch : Nat → Option (List Row)) (url : Nat → String)
    (now d : Nat) (s s' : DBState) (n : Nat)
    (h : incStep fetch url now d s = some (s', n)) :
    (∀ r ∈ s.price, r ∈ s'.price) ∧
    (∀ r ∈ s'.price, r ∈ s.price ∨ existsInPrice s.price r = false) ∧
    (∀ e ∈ s'.ledger, e ∈ s.ledger ∨ 0 < e.records_loaded) := by
  cases hf : fetch d with
  | none =>
    simp only [incStep, hf] at h
    injection h with h
    rw [Prod.mk.injEq] at h
    obtain ⟨rfl, -⟩ := h
    exact ⟨fun r hr => hr, fun r hr => Or.inl hr, fun e he => Or.inl he⟩
  | some batch =>
    simp only [incStep, hf] at h
    split at h
    · exact absurd h (by simp)
    · rename_i price' n' hm
      injection h with h
      rw [Prod.mk.injEq] at h
      obtain ⟨rfl, rfl⟩ := h
      obtain ⟨-, hall, hpr, -⟩ := insertRows_some hm
      subst hpr
      refine ⟨fun r hr => List.mem_append_left _ hr, ?_, ?_⟩
      · intro r hr
        rcases List.mem_append.mp hr with h1 | h1
        · exact Or.inl h1
        · exact Or.inr (hall r h1)
      · intro e he
        by_cases hn : 0 < n'
        · simp only [if_pos hn] at he
          rcases recordProgress_mem he with h1 | h1
          · exact Or.inl h1
          · exact Or.inr (h1 ▸ hn)
        · simp only [if_neg hn] at he
          exact Or.inl he

theorem incLoop_props (fetch : Nat → Option (List Row)) (url : Nat → String)
    (now : Nat) (k : Nat) :
    ∀ (d : Nat) (s s' : DBState) (days : List Nat),
      incLoop fetch url now k d s = some (s', days) →
      days = List.range' d k ∧
      (∀ r ∈ s.price, r ∈ s'.price) ∧
      (∀ r ∈ s'.price, r ∈ s.price ∨ existsInPrice s.price r = false) ∧
      (∀ e ∈ s'.ledger, e ∈ s.ledger ∨ 0 < e.records_loaded) := by
  induction k with
  | zero =>
    intro d s s' days h
    simp only [incLoop] at h
    injection h with h
    rw [Prod.mk.injEq] at h
    obtain ⟨rfl, rfl⟩ := h
    exact ⟨rfl, fun r hr => hr, fun r hr => Or.inl hr, fun e he => Or.inl he⟩
  | succ k ih =>
    intro d s s' days h
    simp only [incLoop] at h
    split at h
    · exact absurd h (by simp)
    · rename_i s1 n hstep
      split at h
      · exact absurd h (by simp)
      · rename_i s2 ds hloop
        injection h with h
        rw [Prod.mk.injEq] at h
        obtain ⟨rfl, rfl⟩ := h
        obtain ⟨hd1, hm1, hn1, hl1⟩ := ih (d + 1) s1 s2 ds hloop
        obtain ⟨hm0, hn0, hl0⟩ := incStep_cases fetch url now d s s1 n hstep
        refine ⟨?_, fun r hr => hm1 r (hm0 r hr), ?_, ?_⟩
        · rw [List.range'_succ, hd1]
        · intro r hr
          rcases hn1 r hr with h1 | h1
          · exact hn0 r h1
          · right
            by_contra hc
            rw [Bool.not_eq_false] at hc
            rw [existsInPrice_subset hm0 hc] at h1
            cases h1
        · intro e he
          rcases hl1 e he with h1 | h1
          · exact hl0 e h1
          · exact Or.inr h1

/-- C4: resumability of the incremental run. Starting from resume day `D`
with current day `T ≥ D`, a completed run processes exactly the days
`D, D+1, ..., T` in chronological order (the processed-day list is
`range' D (T+1-D)`); no date in `(D, T]` is skipped. Re-scanned data causes
no re-insertion: every row of the final persisted set either was already
present or had no row with its identity triple in the initial set. A ledger
entry is written for a day only if at least one row was inserted: every
entry of the final ledger is an untouched initial entry or carries
`records_loaded > 0`. -/
theorem c4_resumability (fetch : Nat → Option (List Row)) (url : Nat → String)
    (now D T : Nat) (s s' : DBState) (days : List Nat) (hDT : D ≤ T)
    (h : incRun fetch url now D T s = some (s', days)) :
    days = List.range' D (T + 1 - D) ∧
    (∀ r ∈ s'.price, r ∈ s.price ∨ existsInPrice s.price r = false) ∧
    (∀ e ∈ s'.ledger, e ∈ s.ledger ∨ 0 < e.records_loaded) := by
  obtain ⟨h1, -, h3, h4⟩ := incLoop_props fetch url now (T + 1 - D) D s s' days h
  exact ⟨h1, h3, h4⟩

/-- Witness for C4 at a concrete input: from day `0` through day `1` with a
one-row monthly file for day `0`, the run processes `[0, 1]` and the single
ledger entry written has a positive count. -/
theorem c4_resumability_witness :
    ([0, 1] : List Nat) = List.range' 0 (1 + 1 - 0) ∧
    (∀ e ∈ [(⟨0, 7, "u", 1⟩ : LedgerEntry)],
      e ∈ ([] : List LedgerEntry) ∨ 0 < e.records_loaded) :=
  ⟨(c4_resumability (fun _ => some [rowA]) (fun _ => "u") 7 0 1 ⟨[], []⟩
      ⟨[rowA], [⟨0, 7, "u", 1⟩]⟩ [0, 1] (by decide) (by decide)).1,
   (c4_resumability (fun _ => some [rowA]) (fun _ => "u") 7 0 1 ⟨[], []⟩
      ⟨[rowA], [⟨0, 7, "u", 1⟩]⟩ [0, 1] (by decide) (by decide)).2.2⟩

/-- C5: missing-period tolerance. A fetch that returns 404 (`none`) for a
period raises no error and writes nothing: in backfill mode the run on
`P :: rest` equals the run on `rest` from an unchanged state; in incremental
mode the day's step returns the state unchanged with zero rows loaded, and
the loop continues with the next day, merely recording day `d` as
processed. -/
theorem c5_missing_period_tolerance (fetchB fetchI : Nat → Option (List Row))
    (urlB urlI : Nat → String) (now P : Nat) (rest : List Nat) (s sI : DBState)
    (d k : Nat) (hB : fetchB P = none) (hI : fetchI d = none) :
    bulkRun fetchB urlB now (P :: rest) s = bulkRun fetchB urlB now rest s ∧
    incStep fetchI urlI now d sI = some (sI, 0) ∧
    incLoop fetchI urlI now (k + 1) d sI =
      (incLoop fetchI urlI now k (d + 1) sI).map (fun q => (q.1, d :: q.2)) := by
  have hstepB : bulkStep fetchB urlB now P s = some s := by
    rw [bulkStep, hB]
    rfl
  have hstepI : incStep fetchI urlI now d sI = some (sI, 0) := by
    rw [incStep, hI]
  refine ⟨?_, hstepI, ?_⟩
  · rw [bulkRun, hstepB]
  · simp only [incLoop, hstepI]
    cases hk : incLoop fetchI urlI now k (d + 1) sI with
    | none => simp
    | some q =>
      obtain ⟨s2, ds⟩ := q
      simp

/-- Witness for C5 at a concrete input: with every fetch returning 404, the
run over months `[2, 3]` equals the run over `[3]`, and day `4`'s step is a
no-op. -/
theorem c5_missing_period_tolerance_witness :
    bulkRun (fun _ => none) (fun _ => "u") 0 [2, 3] ⟨[], []⟩ =
      bulkRun (fun _ => none) (fun _ => "u") 0 [3] ⟨[], []⟩ ∧
    incStep (fun _ => none) (fun _ => "u") 0 4 ⟨[], []⟩ = some (⟨[], []⟩, 0) ∧
    incLoop (fun _ => none) (fun _ => "u") 0 (0 + 1) 4 ⟨[], []⟩ =
      (incLoop (fun _ => none) (fun _ => "u") 0 0 (4 + 1) ⟨[], []⟩).map
        (fun q => (q.1, 4 :: q.2)) :=
  c5_missing_period_tolerance (fun _ => none) (fun _ => none) (fun _ => "u")
    (fun _ => "u") 0 2 [3] ⟨[], []⟩ ⟨[], []⟩ 4 0 rfl rfl

theorem monthIndex_addOneMonth (cur : Date) :
    monthIndex (addOneMonth cur) = monthIndex cur + 1 := by
  rw [addOneMonth]
  split
  · rename_i h
    have h12' : cur.month = 12 := by simpa using h
    simp only [monthIndex, h12']
    omega
  · rename_i h
    simp only [monthIndex]
    omega

theorem addOneMonth_valid {cur : Date} (h1 : 1 ≤ cur.month)
    (h12 : cur.month ≤ 12) :
    1 ≤ (addOneMonth cur).month ∧ (addOneMonth cur).month ≤ 12 ∧
      (addOneMonth cur).day = cur.day := by
  rw [addOneMonth]
  split
  · exact ⟨Nat.le_refl 1, show (1 : Nat) ≤ 12 by omega, rfl⟩
  · rename_i h
    have hne : cur.month ≠ 12 := by simpa using h
    exact ⟨show 1 ≤ cur.month + 1 by omega, show cur.month + 1 ≤ 12 by omega, rfl⟩

theorem monthOfIndex_monthIndex {cur : Date} (h1 : 1 ≤ cur.month)
    (h12 : cur.month ≤ 12) (hd : cur.day = 1) :
    monthOfIndex (monthIndex cur) = cur := by
  obtain ⟨y, m, d⟩ := cur
  simp only [monthOfIndex, monthIndex] at *
  subst hd
  rw [Date.mk.injEq]
  refine ⟨?_, ?_, rfl⟩ <;> omega

theorem dateLe_iff_monthIndex {cur e : Date} (hc1 : 1 ≤ cur.month)
    (hc12 : cur.month ≤ 12) (hcd : cur.day = 1) (he1 : 1 ≤ e.month)
    (he12 : e.month ≤ 12) (hed : 1 ≤ e.day) :
    dateLe cur e = true ↔ monthIndex cur ≤ monthIndex e := by
  obtain ⟨y, m, d⟩ := cur
  obtain ⟨y', m', d'⟩ := e
  simp only [dateLe, monthIndex, Bool.or_eq_true, Bool.and_eq_true,
    decide_eq_true_eq, beq_iff_eq] at *
  subst hcd
  omega

theorem monthIndex_le_of_dateLe {a b : Date} (ha12 : a.month ≤ 12)
    (hb1 : 1 ≤ b.month) (h : dateLe a b = true) :
    monthIndex a ≤ monthIndex b := by
  obtain ⟨y, m, d⟩ := a
  obtain ⟨y', m', d'⟩ := b
  simp only [dateLe, monthIndex, Bool.or_eq_true, Bool.and_eq_true,
    decide_eq_true_eq, beq_iff_eq] at h ⊢
  simp only at ha12 hb1
  omega

theorem monthLoop_eq (e : Date) (he1 : 1 ≤ e.month) (he12 : e.month ≤ 12)
    (hed : 1 ≤ e.day) :
    ∀ (fuel : Nat) (cur : Date), 1 ≤ cur.month → cur.month ≤ 12 → cur.day = 1 →
      monthIndex e + 1 - monthIndex cur ≤ fuel →
      monthLoop fuel cur e =
        (List.range' (monthIndex cur) (monthIndex e + 1 - monthIndex cur)).map
          (fun i => (urlFor (monthOfIndex i), ymFor (monthOfIndex i))) := by
  intro fuel
  induction fuel with
  | zero =>
    intro cur h1 h12 hd hfuel
    rw [Nat.le_zero.mp hfuel]
    rfl
  | succ f ih =>
    intro cur h1 h12 hd hfuel
    by_cases hle : dateLe cur e = true
    · have hmi : monthIndex cur ≤ monthIndex e :=
        (dateLe_iff_monthIndex h1 h12 hd he1 he12 hed).mp hle
      have hcount : monthIndex e + 1 - monthIndex cur =
          (monthIndex e + 1 - (monthIndex cur + 1)) + 1 := by omega
      obtain ⟨hv1, hv12, hvd⟩ := addOneMonth_valid h1 h12
      have htail := ih (addOneMonth cur) hv1 hv12 (hvd.trans hd)
        (by rw [monthIndex_addOneMonth cur]; omega)
      rw [monthLoop, if_pos hle, hcount, List.range'_succ, List.map_cons,
        monthOfIndex_monthIndex h1 h12 hd, htail, monthIndex_addOneMonth cur]
    · have hmi : ¬ monthIndex cur ≤ monthIndex e :=
        fun hc => hle ((dateLe_iff_monthIndex h1 h12 hd he1 he12 hed).mpr hc)
      rw [monthLoop, if_neg hle, show monthIndex e + 1 - monthIndex cur = 0 by omega]
      rfl

/-- C7: backfill period selection. For valid dates with `start <= end`,
`generate_month_urls` produces exactly one `(url, year_month)` entry per
calendar month, for the months of `start` through `end` inclusive, in
chronological order: the output is the image of the contiguous month-index
range `[monthIndex start, monthIndex end]`, which is nonempty. -/
theorem c7_backfill_period_selection (start_date end_date : Date)
    (hs : validDate start_date) (he : validDate end_date)
    (hse : dateLe start_date end_date = true) :
    generate_month_urls start_date end_date =
      (List.range' (monthIndex start_date)
          (monthIndex end_date + 1 - monthIndex start_date)).map
        (fun i => (urlFor (monthOfIndex i), ymFor (monthOfIndex i))) ∧
    monthIndex start_date ≤ monthIndex end_date := by
  obtain ⟨hs1, hs12, hsd⟩ := hs
  obtain ⟨he1, he12, hed⟩ := he
  have hvs1 : 1 ≤ (startOfMonth start_date).month := hs1
  have hvs12 : (startOfMonth start_date).month ≤ 12 := hs12
  have hvsd : (startOfMonth start_date).day = 1 := rfl
  exact ⟨monthLoop_eq end_date he1 he12 hed _ (startOfMonth start_date)
      hvs1 hvs12 hvsd (Nat.le_refl _),
    monthIndex_le_of_dateLe hs12 he1 hse⟩

/-- Witness for C7 at the spec's example: start `2022-01-01`, end
`2022-02-15` yields exactly the two periods `2022-01` and `2022-02`. -/
theorem c7_backfill_period_selection_witness :
    generate_month_urls ⟨2022, 1, 1⟩ ⟨2022, 2, 15⟩ =
      [("https://storage.data.gov.my/pricecatcher/pricecatcher_2022-01.parquet",
        "2022-01"),
       ("https://storage.data.gov.my/pricecatcher/pricecatcher_2022-02.parquet",
        "2022-02")] := by
  rw [(c7_backfill_period_selection ⟨2022, 1, 1⟩ ⟨2022, 2, 15⟩
    ⟨by decide, by decide, by decide⟩
    ⟨by decide, by decide, by decide⟩ (by decide)).1]
  rfl

end PriceCatcher
